import Mathlib

/-!
Shallow embedding of the limit order book engine in `src/main.rs`.

Modelling conventions:
* `rust_decimal::Decimal` prices are modelled as `Int`.  The program only
  compares prices for order and equality (`>=`, `<=`, `==`); `Decimal` is an
  exact scaled integer, so `Int` with the same ordering is a faithful model.
* `i64` quantities, ids and the match counter are modelled as `Int`.  The
  program never relies on wrap-around; in debug Rust an overflow would abort,
  and no claim concerns counter wrap.
* `BTreeMap<Decimal, Vec<Order>>` is modelled as an association list sorted by
  key.  The asks map is kept ascending (the code reads its minimum via
  `iter().next()`), the bids map is kept descending (the code reads its
  maximum via `iter().rev().next()`), so in both representations the head is
  the best opposing level, exactly the level each loop iteration works on.
* `HashMap<i64, Order>` is modelled as an association list with unique keys;
  `insert` overwrites, `remove` deletes the entry.
-/

inductive Side where
  | Buy
  | Sell
deriving DecidableEq, Repr, Inhabited

structure Order where
  id : Int
  price : Int
  quantity : Int
  side : Side
deriving DecidableEq, Repr, Inhabited

structure Fill where
  matched_id : Int
  volume : Int
  price : Int
deriving DecidableEq, Repr, Inhabited

/-- A price level map: association list from price to the FIFO queue of
resting orders at that price (`BTreeMap<Decimal, Vec<Order>>`). -/
abbrev LevelMap := List (Int × List Order)

structure OrderBook where
  bids : LevelMap
  asks : LevelMap
  orders : List (Int × Order)
  match_id : Int
deriving DecidableEq, Repr, Inhabited

/-- `OrderBook::new()`. -/
def OrderBook.new : OrderBook := ⟨[], [], [], 0⟩

/-- `HashMap::get` on the id index: first entry with the given key. -/
def lookupKey : List (Int × Order) → Int → Option Order
  | [], _ => none
  | (k, v) :: rest, i => if k = i then some v else lookupKey rest i

/-- `HashMap::insert` on the id index: overwrite the entry if the key is
present, otherwise add it. -/
def insertKey : List (Int × Order) → Int → Order → List (Int × Order)
  | [], k, v => [(k, v)]
  | (k', v') :: rest, k, v =>
    if k' = k then (k, v) :: rest else (k', v') :: insertKey rest k v

/-- `HashMap::remove` on the id index. -/
def eraseKey : List (Int × Order) → Int → List (Int × Order)
  | [], _ => []
  | (k', v') :: rest, k => if k' = k then rest else (k', v') :: eraseKey rest k

/-- `BTreeMap::get` on a price level map. -/
def lookupLevel : LevelMap → Int → Option (List Order)
  | [], _ => none
  | (p, q) :: rest, k => if p = k then some q else lookupLevel rest k

/-- Replace the queue stored at a price key (in-place mutation through
`get_mut`). -/
def setLevel : LevelMap → Int → List Order → LevelMap
  | [], _, _ => []
  | (p, q) :: rest, k, q' =>
    if p = k then (k, q') :: rest else (p, q) :: setLevel rest k q'

/-- `BTreeMap::remove` of a price key. -/
def eraseLevel : LevelMap → Int → LevelMap
  | [], _ => []
  | (p, q) :: rest, k => if p = k then rest else (p, q) :: eraseLevel rest k

/-- `self.bids.entry(price).or_insert_with(Vec::new).push(order)` on the
descending-sorted bid map: append to the existing queue, or create the level
at its sorted position. -/
def insertBid : LevelMap → Int → Order → LevelMap
  | [], p, o => [(p, [o])]
  | (q, os) :: rest, p, o =>
    if q < p then (p, [o]) :: (q, os) :: rest
    else if q = p then (q, os ++ [o]) :: rest
    else (q, os) :: insertBid rest p o

/-- `self.asks.entry(price).or_insert_with(Vec::new).push(order)` on the
ascending-sorted ask map. -/
def insertAsk : LevelMap → Int → Order → LevelMap
  | [], p, o => [(p, [o])]
  | (q, os) :: rest, p, o =>
    if p < q then (p, [o]) :: (q, os) :: rest
    else if q = p then (q, os ++ [o]) :: rest
    else (q, os) :: insertAsk rest p o

structure QueueResult where
  fills : List Fill
  rem : Int
  queue : List Order
  removed : List Int
  mid : Int
deriving DecidableEq, Repr

/-- The inner `while i < orders.len() && remaining_quantity > 0` loop of
`add_order`: walk one price level's queue in arrival order, trading
`min(remaining, resting)` with each resting order, emitting one `Fill` per
order touched, removing fully consumed orders (and recording their ids, which
the code deletes from the id index as it goes). -/
def matchQueue (mid : Int) (rem : Int) (queue : List Order) (price : Int) :
    QueueResult :=
  match queue with
  | [] => ⟨[], rem, [], [], mid⟩
  | o :: rest =>
    if 0 < rem then
      let trade := min rem o.quantity
      let f : Fill := ⟨mid + 1, trade, price⟩
      if o.quantity - trade = 0 then
        let r := matchQueue (mid + 1) (rem - trade) rest price
        ⟨f :: r.fills, r.rem, r.queue, o.id :: r.removed, r.mid⟩
      else
        let r := matchQueue (mid + 1) (rem - trade) rest price
        ⟨f :: r.fills, r.rem, { o with quantity := o.quantity - trade } :: r.queue,
          r.removed, r.mid⟩
    else ⟨[], rem, o :: rest, [], mid⟩

structure LevelsResult where
  fills : List Fill
  rem : Int
  levels : LevelMap
  removed : List Int
  mid : Int
deriving DecidableEq, Repr

/-- The outer `while order.quantity > 0` loop of `add_order`: repeatedly take
the best opposing level (the head of the best-first level list), stop if it
does not cross, otherwise run the inner queue loop; a level left empty is
removed from the map and the walk continues.  When the inner loop leaves the
level non-empty the incoming remaining quantity is zero (every resting order
it stopped on absorbed the rest), so the source loop's re-check
`order.quantity > 0` fails and it exits, which is what returning here
models. -/
def matchLevels (crosses : Int → Bool) (mid : Int) (qty : Int)
    (levels : LevelMap) : LevelsResult :=
  match levels with
  | [] => ⟨[], qty, [], [], mid⟩
  | (p, q) :: rest =>
    if 0 < qty then
      if crosses p then
        let r := matchQueue mid qty q p
        if r.queue = [] then
          let r2 := matchLevels crosses r.mid r.rem rest
          ⟨r.fills ++ r2.fills, r2.rem, r2.levels, r.removed ++ r2.removed, r2.mid⟩
        else ⟨r.fills, r.rem, (p, r.queue) :: rest, r.removed, r.mid⟩
      else ⟨[], qty, (p, q) :: rest, [], mid⟩
    else ⟨[], qty, (p, q) :: rest, [], mid⟩

/-- The matching phase of `add_order` for a given incoming order: an incoming
Buy walks the asks (ascending, so best-first) while `price >= ask_price`; an
incoming Sell walks the bids (descending, so best-first) while
`price <= bid_price`. -/
def matchPart (b : OrderBook) (o : Order) : LevelsResult :=
  match o.side with
  | Side.Buy => matchLevels (fun p => decide (p ≤ o.price)) b.match_id o.quantity b.asks
  | Side.Sell => matchLevels (fun p => decide (o.price ≤ p)) b.match_id o.quantity b.bids

/-- `OrderBook::add_order`: run the matching loops, delete fully consumed
resting orders from the id index, then, if the incoming order still has
positive remaining quantity, rest it at the back of its own side's price
level and register it in the id index. -/
def OrderBook.add_order (b : OrderBook) (o : Order) : OrderBook × List Fill :=
  let r := matchPart b o
  let orders1 := r.removed.foldl (fun m i => eraseKey m i) b.orders
  match o.side with
  | Side.Buy =>
    let b1 : OrderBook :=
      { bids := b.bids, asks := r.levels, orders := orders1, match_id := r.mid }
    if 0 < r.rem then
      let o' := { o with quantity := r.rem }
      ({ b1 with orders := insertKey b1.orders o'.id o',
                 bids := insertBid b1.bids o'.price o' }, r.fills)
    else (b1, r.fills)
  | Side.Sell =>
    let b1 : OrderBook :=
      { bids := r.levels, asks := b.asks, orders := orders1, match_id := r.mid }
    if 0 < r.rem then
      let o' := { o with quantity := r.rem }
      ({ b1 with orders := insertKey b1.orders o'.id o',
                 asks := insertAsk b1.asks o'.price o' }, r.fills)
    else (b1, r.fills)

/-- `Vec::position(|o| o.id == id)` followed by `Vec::remove(pos)`:
remove the first order with the given id, or `none` when absent. -/
def removeById : List Order → Int → Option (List Order)
  | [], _ => none
  | o :: rest, i =>
    if o.id = i then some rest else (removeById rest i).map (o :: ·)

/-- `OrderBook::remove_order`: delete the id from the index first (the source
does `self.orders.remove(&id)`), then look for the indexed order's price
level on its side and delete the first queue entry with that id, dropping the
level if it becomes empty.  The returned order is the index's stored copy. -/
def OrderBook.remove_order (b : OrderBook) (id : Int) : OrderBook × Option Order :=
  match lookupKey b.orders id with
  | none => (b, none)
  | some order =>
    let orders' := eraseKey b.orders id
    match order.side with
    | Side.Buy =>
      match lookupLevel b.bids order.price with
      | some q =>
        match removeById q order.id with
        | some q' =>
          let bids' := if q' = [] then eraseLevel b.bids order.price
                       else setLevel b.bids order.price q'
          ({ b with bids := bids', orders := orders' }, some order)
        | none => ({ b with orders := orders' }, none)
      | none => ({ b with orders := orders' }, none)
    | Side.Sell =>
      match lookupLevel b.asks order.price with
      | some q =>
        match removeById q order.id with
        | some q' =>
          let asks' := if q' = [] then eraseLevel b.asks order.price
                       else setLevel b.asks order.price q'
          ({ b with asks := asks', orders := orders' }, some order)
        | none => ({ b with orders := orders' }, none)
      | none => ({ b with orders := orders' }, none)

/-- Fold a list of submissions through `addOrder`, collecting every fill in
order of emission. -/
def runBook : OrderBook → List Order → OrderBook × List Fill
  | b, [] => (b, [])
  | b, o :: rest =>
    ((runBook (b.add_order o).1 rest).1,
      (b.add_order o).2 ++ (runBook (b.add_order o).1 rest).2)

/-- Highest-priced bid level (bids are stored descending, best first). -/
def bestBid (b : OrderBook) : Option Int := (b.bids.head?).map Prod.fst

/-- Lowest-priced ask level (asks are stored ascending, best first). -/
def bestAsk (b : OrderBook) : Option Int := (b.asks.head?).map Prod.fst

/-- Sum of the traded volumes of a list of fills. -/
def sumVol (fs : List Fill) : Int := (fs.map Fill.volume).sum

/-- The level map of the given side of the book (`bids` for Buy, `asks` for
Sell), as `remove_order` selects it. -/
def sideLevels (b : OrderBook) : Side → LevelMap
  | Side.Buy => b.bids
  | Side.Sell => b.asks

def otherSide : Side → Side
  | Side.Buy => Side.Sell
  | Side.Sell => Side.Buy

/-- Price keys of a level map. -/
def keys (m : LevelMap) : List Int := m.map Prod.fst

/-- The remaining quantity, after one run of the inner matching loop, of the
i-th order of the queue the loop started from: zero when the loop removed it
(the loop only ever removes a prefix of the queue), and the surviving head's
quantity when the i-th order is the partially consumed survivor. -/
def afterQty (before after : List Order) (i : Nat) : Int :=
  if i < before.length - after.length then 0
  else
    match after with
    | [] => 0
    | o :: _ => o.quantity

/-- The consecutive run of match identifiers s + 1, s + 2, ..., s + n. -/
def idsFrom (s : Int) : Nat → List Int
  | 0 => []
  | n + 1 => (s + 1) :: idsFrom (s + 1) n

/-- Example book: one resting ask of quantity 10 at price 100, partially
filled (4 units) by a crossing buy, so its queue entry has quantity 6 while
the id index still stores the quantity-10 clone made at insertion. -/
def bStale : OrderBook :=
  ((OrderBook.new.add_order ⟨10, 100, 10, Side.Sell⟩).1.add_order
    ⟨20, 100, 4, Side.Buy⟩).1

/-- Example book: a single resting ask at price 101. -/
def bAsk101 : OrderBook := (OrderBook.new.add_order ⟨9, 101, 3, Side.Sell⟩).1

/-- Example incoming buy that cannot cross `bAsk101`. -/
def oBuy100 : Order := ⟨5, 100, 7, Side.Buy⟩

/-- Example book holding two resting orders that share id 1 (the duplicate
submitted at a different price). -/
def bDup : OrderBook :=
  ((OrderBook.new.add_order ⟨1, 100, 10, Side.Buy⟩).1.add_order
    ⟨1, 90, 5, Side.Buy⟩).1

/-- Example book: a single resting ask of quantity 5 at price 100. -/
def bAsk100 : OrderBook := (OrderBook.new.add_order ⟨7, 100, 5, Side.Sell⟩).1

/-- Example submission sequence leaving both sides non-empty. -/
def osBoth : List Order := [⟨1, 100, 10, Side.Buy⟩, ⟨2, 101, 5, Side.Sell⟩]

/-- The representation invariant every book reachable through `add_order`
satisfies: asks sorted strictly ascending, bids strictly descending, no
empty level, every resting quantity positive, and every bid price strictly
below every ask price. -/
structure ValidBook (b : OrderBook) : Prop where
  asksSorted : List.Chain' (· < ·) (keys b.asks)
  bidsSorted : List.Chain' (· > ·) (keys b.bids)
  asksProp : ∀ l ∈ b.asks, l.2 ≠ [] ∧ ∀ x ∈ l.2, 0 < x.quantity
  bidsProp : ∀ l ∈ b.bids, l.2 ≠ [] ∧ ∀ x ∈ l.2, 0 < x.quantity
  uncrossed : ∀ bp ∈ keys b.bids, ∀ ap ∈ keys b.asks, bp < ap

/-! ## Basic lemmas about the matching loops -/

theorem matchQueue_nonpos (mid rem : Int) (q : List Order) (p : Int)
    (h : rem ≤ 0) : matchQueue mid rem q p = ⟨[], rem, q, [], mid⟩ := by
  cases q with
  | nil => rfl
  | cons o rest =>
    unfold matchQueue
    rw [if_neg (by omega)]

theorem matchLevels_nonpos (crosses : Int → Bool) (mid qty : Int)
    (levels : LevelMap) (h : qty ≤ 0) :
    matchLevels crosses mid qty levels = ⟨[], qty, levels, [], mid⟩ := by
  cases levels with
  | nil => rfl
  | cons l rest =>
    obtain ⟨p, q⟩ := l
    unfold matchLevels
    rw [if_neg (by omega)]

theorem matchLevels_nocross (crosses : Int → Bool) (mid qty : Int)
    (levels : LevelMap) (h : ∀ l ∈ levels, crosses l.1 = false) :
    matchLevels crosses mid qty levels = ⟨[], qty, levels, [], mid⟩ := by
  cases levels with
  | nil => rfl
  | cons l rest =>
    obtain ⟨p, q⟩ := l
    unfold matchLevels
    by_cases hq : 0 < qty
    · rw [if_pos hq, if_neg (by simp [h (p, q) (by simp)])]
    · rw [if_neg hq]

theorem add_order_fills (b : OrderBook) (o : Order) :
    (b.add_order o).2 = (matchPart b o).fills := by
  unfold OrderBook.add_order
  cases o.side <;> dsimp only <;> split <;> rfl

theorem matchQueue_sumVol (mid rem : Int) (q : List Order) (p : Int) :
    rem = sumVol (matchQueue mid rem q p).fills + (matchQueue mid rem q p).rem := by
  induction q generalizing mid rem with
  | nil => simp [matchQueue, sumVol]
  | cons o rest ih =>
    by_cases h : 0 < rem
    · simp only [matchQueue, if_pos h]
      by_cases h2 : o.quantity - min rem o.quantity = 0
      · rw [if_pos h2]
        have := ih (mid + 1) (rem - min rem o.quantity)
        simp only [sumVol, List.map_cons, List.sum_cons] at *
        omega
      · rw [if_neg h2]
        have := ih (mid + 1) (rem - min rem o.quantity)
        simp only [sumVol, List.map_cons, List.sum_cons] at *
        omega
    · rw [matchQueue_nonpos mid rem (o :: rest) p (by omega)]
      simp [sumVol]

theorem matchLevels_sumVol (crosses : Int → Bool) (mid qty : Int)
    (levels : LevelMap) :
    qty = sumVol (matchLevels crosses mid qty levels).fills
            + (matchLevels crosses mid qty levels).rem := by
  induction levels generalizing mid qty with
  | nil => simp [matchLevels, sumVol]
  | cons l rest ih =>
    obtain ⟨p, q⟩ := l
    by_cases h : 0 < qty
    · simp only [matchLevels, if_pos h]
      by_cases hc : crosses p
      · rw [if_pos hc]
        by_cases he : (matchQueue mid qty q p).queue = []
        · rw [if_pos he]
          have h1 := matchQueue_sumVol mid qty q p
          have h2 := ih (matchQueue mid qty q p).mid (matchQueue mid qty q p).rem
          simp only [sumVol, List.map_append, List.sum_append] at *
          omega
        · rw [if_neg he]
          exact matchQueue_sumVol mid qty q p
      · rw [if_neg hc]
        simp [sumVol]
    · rw [matchLevels_nonpos crosses mid qty ((p, q) :: rest) (by omega)]
      simp [sumVol]

theorem matchQueue_queue_len_le (mid rem : Int) (q : List Order) (p : Int) :
    (matchQueue mid rem q p).queue.length ≤ q.length := by
  induction q generalizing mid rem with
  | nil => simp [matchQueue]
  | cons o rest ih =>
    by_cases h : 0 < rem
    · simp only [matchQueue, if_pos h]
      by_cases h2 : o.quantity - min rem o.quantity = 0
      · rw [if_pos h2]
        have := ih (mid + 1) (rem - min rem o.quantity)
        simp only [List.length_cons]
        omega
      · rw [if_neg h2]
        have := ih (mid + 1) (rem - min rem o.quantity)
        simp only [List.length_cons]
        omega
    · rw [matchQueue_nonpos mid rem (o :: rest) p (by omega)]

theorem afterQty_cons (o : Order) (rest after : List Order) (i : Nat)
    (h : after.length ≤ rest.length) :
    afterQty (o :: rest) after (i + 1) = afterQty rest after i := by
  unfold afterQty
  have h1 : (o :: rest).length - after.length
      = (rest.length - after.length) + 1 := by
    simp only [List.length_cons]
    omega
  rw [h1]
  simp [Nat.succ_lt_succ_iff]

theorem matchQueue_touch (mid rem : Int) (q : List Order) (p : Int)
    (hrem : 0 ≤ rem) :
    ∀ i, i < (matchQueue mid rem q p).fills.length →
      (q.getD i default).quantity
        = ((matchQueue mid rem q p).fills.getD i default).volume
          + afterQty q (matchQueue mid rem q p).queue i := by
  induction q generalizing mid rem with
  | nil => intro i hi; simp [matchQueue] at hi
  | cons o rest ih =>
    intro i hi
    by_cases h : 0 < rem
    · simp only [matchQueue, if_pos h] at hi ⊢
      by_cases h2 : o.quantity - min rem o.quantity = 0
      · rw [if_pos h2] at hi ⊢
        cases i with
        | zero =>
          have hlen := matchQueue_queue_len_le (mid + 1) (rem - min rem o.quantity)
            rest p
          simp only [List.getD_cons_zero]
          have hz : afterQty (o :: rest)
              (matchQueue (mid + 1) (rem - min rem o.quantity) rest p).queue 0
              = 0 := by
            unfold afterQty
            rw [if_pos (by simp only [List.length_cons]; omega)]
          rw [hz]
          omega
        | succ i =>
          have hlen := matchQueue_queue_len_le (mid + 1) (rem - min rem o.quantity)
            rest p
          simp only [List.length_cons, Nat.succ_lt_succ_iff,
            QueueResult.fills] at hi
          simp only [List.getD_cons_succ, QueueResult.fills, QueueResult.queue]
          rw [afterQty_cons o rest _ i hlen]
          exact ih (mid + 1) (rem - min rem o.quantity) (by omega) i hi
      · rw [if_neg h2] at hi ⊢
        have htr : min rem o.quantity = rem := by omega
        have hz : matchQueue (mid + 1) (rem - min rem o.quantity) rest p
            = ⟨[], rem - min rem o.quantity, rest, [], mid + 1⟩ :=
          matchQueue_nonpos _ _ _ _ (by omega)
        rw [hz] at hi ⊢
        simp only [QueueResult.fills, List.length_cons, List.length_nil] at hi
        have hi0 : i = 0 := by omega
        subst hi0
        simp only [List.getD_cons_zero, QueueResult.fills, QueueResult.queue]
        have hz2 : afterQty (o :: rest)
            ({ o with quantity := o.quantity - min rem o.quantity } :: rest) 0
            = o.quantity - min rem o.quantity := by
          unfold afterQty
          rw [if_neg (by simp only [List.length_cons]; omega)]
        rw [hz2]
        omega
    · rw [matchQueue_nonpos mid rem (o :: rest) p (by omega)] at hi
      simp at hi

/-- C1: across any `add_order` call the incoming quantity before the call
equals the sum of the returned fill volumes plus the incoming remaining
quantity after the call; and within a price level, the i-th resting order
touched by the inner loop had, before the call, exactly the volume of the
i-th fill plus its quantity after the call (zero when the loop removed it). -/
theorem C1_conservation_of_quantity :
    (∀ (b : OrderBook) (o : Order),
       (b.add_order o).2 = (matchPart b o).fills ∧
       o.quantity = sumVol (matchPart b o).fills + (matchPart b o).rem) ∧
    (∀ (mid rem : Int) (q : List Order) (p : Int), 0 ≤ rem →
       ∀ i, i < (matchQueue mid rem q p).fills.length →
         (q.getD i default).quantity
           = ((matchQueue mid rem q p).fills.getD i default).volume
             + afterQty q (matchQueue mid rem q p).queue i) := by
  constructor
  · intro b o
    refine ⟨add_order_fills b o, ?_⟩
    rcases o with ⟨oid, op, oq, os⟩
    cases os <;> exact matchLevels_sumVol ..
  · exact matchQueue_touch

theorem C1_conservation_of_quantity_witness :
    (0:Int) ≤ 5 ∧
    0 < (matchQueue 0 5 [⟨1, 100, 3, Side.Sell⟩, ⟨2, 100, 4, Side.Sell⟩]
          100).fills.length ∧
    (([⟨1, 100, 3, Side.Sell⟩, ⟨2, 100, 4, Side.Sell⟩] : List Order).getD 0
        default).quantity
      = ((matchQueue 0 5 [⟨1, 100, 3, Side.Sell⟩, ⟨2, 100, 4, Side.Sell⟩]
            100).fills.getD 0 default).volume
        + afterQty [⟨1, 100, 3, Side.Sell⟩, ⟨2, 100, 4, Side.Sell⟩]
            (matchQueue 0 5 [⟨1, 100, 3, Side.Sell⟩, ⟨2, 100, 4, Side.Sell⟩]
              100).queue 0 :=
  ⟨by decide, by decide,
    C1_conservation_of_quantity.2 0 5 _ 100 (by decide) 0 (by decide)⟩

/-- C5 counterexample: an order with a negative price and positive quantity
is accepted into the book with no fills and no error signal, so `add_order`
does not reject degenerate orders. -/
theorem C5_counterexample :
    OrderBook.new.add_order ⟨1, -5, 10, Side.Buy⟩
      = ({ bids := [(-5, [⟨1, -5, 10, Side.Buy⟩])], asks := [],
           orders := [(1, ⟨1, -5, 10, Side.Buy⟩)], match_id := 0 }, []) ∧
    (OrderBook.new.add_order ⟨1, -5, 10, Side.Buy⟩).1 ≠ OrderBook.new := by
  constructor
  · decide
  · decide

/-- C5 amended: `add_order` performs no validation and has no error channel.
An order with non-positive quantity produces no fills, never rests and
leaves the book unchanged (anything with positive quantity, including
non-positive prices, is processed like any other order). -/
theorem C5_amended (b : OrderBook) (o : Order) (h : o.quantity ≤ 0) :
    b.add_order o = (b, []) := by
  rcases o with ⟨oid, op, oq, os⟩
  simp only at h
  cases os <;>
    simp [OrderBook.add_order, matchPart, matchLevels_nonpos _ _ _ _ h,
      not_lt.mpr h]

theorem C5_amended_witness :
    (⟨1, 100, 0, Side.Buy⟩ : Order).quantity ≤ 0 ∧
    OrderBook.new.add_order ⟨1, 100, 0, Side.Buy⟩ = (OrderBook.new, []) :=
  ⟨by decide, C5_amended OrderBook.new ⟨1, 100, 0, Side.Buy⟩ (by decide)⟩

/-- C8: cancelling an id that is not in the book is reported as not found
(`none`) and leaves the whole book state unchanged. -/
theorem C8_cancel_unknown (b : OrderBook) (id : Int)
    (h : lookupKey b.orders id = none) :
    b.remove_order id = (b, none) := by
  unfold OrderBook.remove_order
  rw [h]

theorem C8_cancel_unknown_witness :
    lookupKey OrderBook.new.orders 5 = none ∧
    OrderBook.new.remove_order 5 = (OrderBook.new, none) :=
  ⟨by decide, C8_cancel_unknown OrderBook.new 5 (by decide)⟩

/-- C10: submitting an order whose id already rests is accepted with no
error signal; both copies rest in their price levels, the id index silently
keeps only the later copy, and a subsequent cancel removes just that later
copy, leaving the earlier one resting with no index entry. -/
theorem C10_duplicate_id :
    ((OrderBook.new.add_order ⟨1, 100, 10, Side.Buy⟩).1.add_order
        ⟨1, 90, 5, Side.Buy⟩).2 = [] ∧
    lookupLevel bDup.bids 100 = some [⟨1, 100, 10, Side.Buy⟩] ∧
    lookupLevel bDup.bids 90 = some [⟨1, 90, 5, Side.Buy⟩] ∧
    lookupKey bDup.orders 1 = some ⟨1, 90, 5, Side.Buy⟩ ∧
    (bDup.remove_order 1).2 = some ⟨1, 90, 5, Side.Buy⟩ ∧
    lookupLevel (bDup.remove_order 1).1.bids 100
      = some [⟨1, 100, 10, Side.Buy⟩] ∧
    lookupLevel (bDup.remove_order 1).1.bids 90 = none ∧
    lookupKey (bDup.remove_order 1).1.orders 1 = none := by
  decide

/-- C9: an incoming order with positive quantity that cannot cross (opposing
side empty, or every opposing level strictly beyond its limit price)
generates no fills and rests at the back of its own level with its full
original quantity; the opposing side, the rest of its own side and the match
counter are untouched. -/
theorem C9_no_cross_rests (b : OrderBook) (o : Order) (hq : 0 < o.quantity) :
    (o.side = Side.Buy → (∀ l ∈ b.asks, o.price < l.1) →
       b.add_order o
         = ({ b with bids := insertBid b.bids o.price o,
                     orders := insertKey b.orders o.id o }, [])) ∧
    (o.side = Side.Sell → (∀ l ∈ b.bids, l.1 < o.price) →
       b.add_order o
         = ({ b with asks := insertAsk b.asks o.price o,
                     orders := insertKey b.orders o.id o }, [])) := by
  constructor
  · intro hs hlt
    have hm : matchPart b o = ⟨[], o.quantity, b.asks, [], b.match_id⟩ := by
      unfold matchPart
      rw [hs]
      apply matchLevels_nocross
      intro l hl
      simp only [decide_eq_false_iff_not, not_le]
      exact hlt l hl
    simp only [OrderBook.add_order, hm, hs, List.foldl_nil, if_pos hq]
    rw [← hs]
  · intro hs hlt
    have hm : matchPart b o = ⟨[], o.quantity, b.bids, [], b.match_id⟩ := by
      unfold matchPart
      rw [hs]
      apply matchLevels_nocross
      intro l hl
      simp only [decide_eq_false_iff_not, not_le]
      exact hlt l hl
    simp only [OrderBook.add_order, hm, hs, List.foldl_nil, if_pos hq]
    rw [← hs]

theorem C9_no_cross_rests_witness :
    (0:Int) < oBuy100.quantity ∧
    oBuy100.side = Side.Buy ∧
    (∀ l ∈ bAsk101.asks, oBuy100.price < l.1) ∧
    bAsk101.add_order oBuy100
      = ({ bAsk101 with
             bids := insertBid bAsk101.bids oBuy100.price oBuy100,
             orders := insertKey bAsk101.orders oBuy100.id oBuy100 }, []) :=
  ⟨by decide, by decide, by decide,
    (C9_no_cross_rests bAsk101 oBuy100 (by decide)).1 (by decide) (by decide)⟩

/-- C4 counterexample: after a partial fill, `remove_order` returns the
stale clone stored in the id index at insertion time (quantity 10), not the
order's current remaining quantity (6): the index copy is never updated by
the matching loop. -/
theorem C4_counterexample :
    lookupLevel bStale.asks 100 = some [⟨10, 100, 6, Side.Sell⟩] ∧
    (bStale.remove_order 10).2 = some ⟨10, 100, 10, Side.Sell⟩ ∧
    (bStale.remove_order 10).2 ≠ some ⟨10, 100, 6, Side.Sell⟩ := by
  refine ⟨by decide, by decide, by decide⟩

/-- C4 amended: `remove_order` of a resting id removes it from its price
level and from the id index (dropping the level if it becomes empty) and
returns the copy of the order stored in the id index — the state it had when
it was inserted; partial fills reduce only the queue entry, so the returned
quantity is the quantity at insertion, not the current remaining quantity. -/
theorem C4_amended (b : OrderBook) (id : Int) (o : Order) (q q' : List Order)
    (ho : lookupKey b.orders id = some o)
    (hq : lookupLevel (sideLevels b o.side) o.price = some q)
    (hr : removeById q o.id = some q') :
    (b.remove_order id).2 = some o ∧
    (b.remove_order id).1.orders = eraseKey b.orders id ∧
    sideLevels (b.remove_order id).1 o.side
      = (if q' = [] then eraseLevel (sideLevels b o.side) o.price
         else setLevel (sideLevels b o.side) o.price q') ∧
    sideLevels (b.remove_order id).1 (otherSide o.side)
      = sideLevels b (otherSide o.side) ∧
    (b.remove_order id).1.match_id = b.match_id := by
  cases hs : o.side with
  | Buy =>
    rw [hs] at hq
    simp only [sideLevels] at hq ⊢
    unfold OrderBook.remove_order
    simp only [ho, hs, hq, hr, otherSide, sideLevels]
    exact ⟨trivial, trivial, trivial, trivial, trivial⟩
  | Sell =>
    rw [hs] at hq
    simp only [sideLevels] at hq ⊢
    unfold OrderBook.remove_order
    simp only [ho, hs, hq, hr, otherSide, sideLevels]
    exact ⟨trivial, trivial, trivial, trivial, trivial⟩

theorem C4_amended_witness :
    lookupKey bStale.orders 10 = some ⟨10, 100, 10, Side.Sell⟩ ∧
    (bStale.remove_order 10).2 = some ⟨10, 100, 10, Side.Sell⟩ ∧
    (bStale.remove_order 10).1.orders = eraseKey bStale.orders 10 :=
  ⟨by decide,
    (C4_amended bStale 10 ⟨10, 100, 10, Side.Sell⟩ [⟨10, 100, 6, Side.Sell⟩]
      [] (by decide) (by decide) (by decide)).1,
    (C4_amended bStale 10 ⟨10, 100, 10, Side.Sell⟩ [⟨10, 100, 6, Side.Sell⟩]
      [] (by decide) (by decide) (by decide)).2.1⟩

theorem lookupLevel_eq_none (m : LevelMap) (k : Int)
    (h : ∀ l ∈ m, l.1 ≠ k) : lookupLevel m k = none := by
  induction m with
  | nil => rfl
  | cons l rest ih =>
    obtain ⟨p, q⟩ := l
    unfold lookupLevel
    rw [if_neg (h (p, q) (by simp)), ih]
    intro l hl
    exact h l (List.mem_cons_of_mem _ hl)

theorem chainGt_head (q : Int) (ks : List Int)
    (h : List.Chain' (· > ·) (q :: ks)) : ∀ x ∈ ks, x < q := by
  have hp := List.chain'_iff_pairwise.mp h
  exact fun x hx => (List.pairwise_cons.mp hp).1 x hx

theorem chainLt_head (q : Int) (ks : List Int)
    (h : List.Chain' (· < ·) (q :: ks)) : ∀ x ∈ ks, q < x := by
  have hp := List.chain'_iff_pairwise.mp h
  exact fun x hx => (List.pairwise_cons.mp hp).1 x hx

theorem lookupLevel_insertBid (m : LevelMap) (p : Int) (o : Order)
    (hs : List.Chain' (· > ·) (m.map Prod.fst)) :
    lookupLevel (insertBid m p o) p
      = some ((lookupLevel m p).getD [] ++ [o]) := by
  induction m with
  | nil => simp [insertBid, lookupLevel]
  | cons l rest ih =>
    obtain ⟨q, os⟩ := l
    by_cases h1 : q < p
    · have hnone : lookupLevel ((q, os) :: rest) p = none := by
        apply lookupLevel_eq_none
        intro l hl
        rcases List.mem_cons.mp hl with h | h
        · rw [h]; simp; omega
        · have := chainGt_head q (rest.map Prod.fst) (by simpa using hs) l.1
            (List.mem_map_of_mem Prod.fst h)
          omega
      rw [hnone]
      simp [insertBid, h1, lookupLevel]
    · by_cases h2 : q = p
      · subst h2
        simp [insertBid, h1, lookupLevel]
      · have htail : List.Chain' (· > ·) (rest.map Prod.fst) := by
          simpa using List.Chain'.tail (by simpa using hs)
        simp only [insertBid, if_neg h1, if_neg h2, lookupLevel]
        exact ih htail

theorem lookupLevel_insertAsk (m : LevelMap) (p : Int) (o : Order)
    (hs : List.Chain' (· < ·) (m.map Prod.fst)) :
    lookupLevel (insertAsk m p o) p
      = some ((lookupLevel m p).getD [] ++ [o]) := by
  induction m with
  | nil => simp [insertAsk, lookupLevel]
  | cons l rest ih =>
    obtain ⟨q, os⟩ := l
    by_cases h1 : p < q
    · have hnone : lookupLevel ((q, os) :: rest) p = none := by
        apply lookupLevel_eq_none
        intro l hl
        rcases List.mem_cons.mp hl with h | h
        · rw [h]; simp; omega
        · have := chainLt_head q (rest.map Prod.fst) (by simpa using hs) l.1
            (List.mem_map_of_mem Prod.fst h)
          omega
      rw [hnone]
      simp [insertAsk, h1, lookupLevel]
    · by_cases h2 : q = p
      · subst h2
        simp [insertAsk, h1, lookupLevel]
      · have htail : List.Chain' (· < ·) (rest.map Prod.fst) := by
          simpa using List.Chain'.tail (by simpa using hs)
        simp only [insertAsk, if_neg h1, if_neg h2, lookupLevel]
        exact ih htail

/-- C2: within a price level resting orders are consumed strictly in arrival
order — against two resting orders, an incoming crossing quantity that
exceeds the earlier order consumes it in full (first fill volume is its
whole quantity, its id is deleted), while a quantity the earlier order can
absorb produces a single fill and leaves the later order untouched at the
back; and a newly resting order is appended at the back of the queue of its
own price level. -/
theorem C2_price_time_priority :
    (∀ (mid rem p : Int) (o1 o2 : Order), 0 < rem → 0 < o1.quantity →
       0 < o2.quantity →
       (rem ≤ o1.quantity →
          (matchQueue mid rem [o1, o2] p).fills = [⟨mid + 1, rem, p⟩] ∧
          (matchQueue mid rem [o1, o2] p).queue.getLast? = some o2) ∧
       (o1.quantity < rem →
          ((matchQueue mid rem [o1, o2] p).fills.getD 0 default).volume
            = o1.quantity ∧
          o1.id ∈ (matchQueue mid rem [o1, o2] p).removed)) ∧
    (∀ (b : OrderBook) (o : Order), o.side = Side.Buy →
       List.Chain' (· > ·) (b.bids.map Prod.fst) → 0 < (matchPart b o).rem →
       lookupLevel (b.add_order o).1.bids o.price
         = some ((lookupLevel b.bids o.price).getD []
             ++ [{ o with quantity := (matchPart b o).rem }])) ∧
    (∀ (b : OrderBook) (o : Order), o.side = Side.Sell →
       List.Chain' (· < ·) (b.asks.map Prod.fst) → 0 < (matchPart b o).rem →
       lookupLevel (b.add_order o).1.asks o.price
         = some ((lookupLevel b.asks o.price).getD []
             ++ [{ o with quantity := (matchPart b o).rem }])) := by
  refine ⟨?_, ?_, ?_⟩
  · intro mid rem p o1 o2 hrem h1 h2
    constructor
    · intro hle
      have hmin : min rem o1.quantity = rem := min_eq_left hle
      simp only [matchQueue, if_pos hrem, hmin]
      by_cases hz : o1.quantity - rem = 0
      · rw [if_pos hz]
        constructor <;> simp
      · rw [if_neg hz]
        constructor <;> simp
    · intro hlt
      have hmin : min rem o1.quantity = o1.quantity :=
        min_eq_right (le_of_lt hlt)
      simp only [matchQueue, if_pos hrem, hmin]
      rw [if_pos (by ring : o1.quantity - o1.quantity = 0)]
      exact ⟨rfl, List.mem_cons_self _ _⟩
  · intro b o hs hsort hrem
    have hb : (b.add_order o).1.bids
        = insertBid b.bids o.price { o with quantity := (matchPart b o).rem } := by
      simp only [OrderBook.add_order, hs, if_pos hrem]
    rw [hb]
    exact lookupLevel_insertBid b.bids o.price _ hsort
  · intro b o hs hsort hrem
    have hb : (b.add_order o).1.asks
        = insertAsk b.asks o.price { o with quantity := (matchPart b o).rem } := by
      simp only [OrderBook.add_order, hs, if_pos hrem]
    rw [hb]
    exact lookupLevel_insertAsk b.asks o.price _ hsort

theorem C2_price_time_priority_witness :
    ((matchQueue 0 5 [⟨1, 100, 3, Side.Sell⟩, ⟨2, 100, 4, Side.Sell⟩]
        100).fills.getD 0 default).volume = 3 ∧
    (1:Int) ∈ (matchQueue 0 5 [⟨1, 100, 3, Side.Sell⟩, ⟨2, 100, 4, Side.Sell⟩]
        100).removed :=
  (C2_price_time_priority.1 0 5 100 ⟨1, 100, 3, Side.Sell⟩
    ⟨2, 100, 4, Side.Sell⟩ (by decide) (by decide) (by decide)).2 (by decide)

theorem matchQueue_fill_mem (mid rem : Int) (q : List Order) (p : Int)
    (hq : ∀ o ∈ q, 0 < o.quantity) :
    ∀ f ∈ (matchQueue mid rem q p).fills, f.price = p ∧ 0 < f.volume := by
  induction q generalizing mid rem with
  | nil => intro f hf; simp [matchQueue] at hf
  | cons o rest ih =>
    intro f hf
    by_cases h : 0 < rem
    · simp only [matchQueue, if_pos h] at hf
      by_cases h2 : o.quantity - min rem o.quantity = 0
      · rw [if_pos h2] at hf
        rcases List.mem_cons.mp hf with h3 | h3
        · rw [h3]
          exact ⟨rfl, lt_min h (hq o (by simp))⟩
        · exact ih (mid + 1) _ (fun x hx => hq x (by simp [hx])) f h3
      · rw [if_neg h2] at hf
        rcases List.mem_cons.mp hf with h3 | h3
        · rw [h3]
          exact ⟨rfl, lt_min h (hq o (by simp))⟩
        · exact ih (mid + 1) _ (fun x hx => hq x (by simp [hx])) f h3
    · rw [matchQueue_nonpos mid rem _ p (by omega)] at hf
      simp at hf

theorem matchLevels_fill_mem (crosses : Int → Bool) (mid qty : Int)
    (levels : LevelMap) (h : ∀ l ∈ levels, ∀ x ∈ l.2, 0 < x.quantity) :
    ∀ f ∈ (matchLevels crosses mid qty levels).fills,
      ∃ pq, pq ∈ levels ∧ crosses pq.1 = true ∧ f.price = pq.1 ∧
        0 < f.volume := by
  induction levels generalizing mid qty with
  | nil => intro f hf; simp [matchLevels] at hf
  | cons l rest ih =>
    obtain ⟨p, q⟩ := l
    intro f hf
    by_cases hqty : 0 < qty
    · simp only [matchLevels, if_pos hqty] at hf
      by_cases hc : crosses p = true
      · rw [if_pos hc] at hf
        by_cases he : (matchQueue mid qty q p).queue = []
        · rw [if_pos he] at hf
          rcases List.mem_append.mp hf with h3 | h3
          · have hh := matchQueue_fill_mem mid qty q p (h (p, q) (by simp)) f h3
            exact ⟨(p, q), by simp, hc, hh.1, hh.2⟩
          · obtain ⟨pq, hpq, hcr, hp, hv⟩ :=
              ih _ _ (fun l hl => h l (by simp [hl])) f h3
            exact ⟨pq, by simp [hpq], hcr, hp, hv⟩
        · rw [if_neg he] at hf
          have hh := matchQueue_fill_mem mid qty q p (h (p, q) (by simp)) f hf
          exact ⟨(p, q), by simp, hc, hh.1, hh.2⟩
      · rw [if_neg hc] at hf
        simp at hf
    · rw [matchLevels_nonpos crosses mid qty _ (by omega)] at hf
      simp at hf

/-- C6: every fill of an `add_order` call carries a positive volume and the
resting side's price: for an incoming Buy the fill price is the price of an
ask level of the pre-call book, and it is at most the incoming limit price
(the aggressor never improves on the resting price); symmetrically for an
incoming Sell. -/
theorem C6_fill_price (b : OrderBook) (o : Order)
    (hA : ∀ l ∈ b.asks, ∀ x ∈ l.2, 0 < x.quantity)
    (hB : ∀ l ∈ b.bids, ∀ x ∈ l.2, 0 < x.quantity) :
    ∀ f ∈ (b.add_order o).2,
      0 < f.volume ∧
      (o.side = Side.Buy → ∃ q, (f.price, q) ∈ b.asks ∧ f.price ≤ o.price) ∧
      (o.side = Side.Sell → ∃ q, (f.price, q) ∈ b.bids ∧ o.price ≤ f.price) := by
  intro f hf
  rw [add_order_fills] at hf
  cases hs : o.side with
  | Buy =>
    have hm : matchPart b o
        = matchLevels (fun p => decide (p ≤ o.price)) b.match_id o.quantity
            b.asks := by
      unfold matchPart
      rw [hs]
    rw [hm] at hf
    obtain ⟨pq, hpq, hcr, hp, hv⟩ := matchLevels_fill_mem _ _ _ _ hA f hf
    refine ⟨hv, fun _ => ⟨pq.2, ?_, ?_⟩, fun hcon => ?_⟩
    · rw [hp]
      simpa using hpq
    · rw [hp]
      exact of_decide_eq_true hcr
    · cases hcon
  | Sell =>
    have hm : matchPart b o
        = matchLevels (fun p => decide (o.price ≤ p)) b.match_id o.quantity
            b.bids := by
      unfold matchPart
      rw [hs]
    rw [hm] at hf
    obtain ⟨pq, hpq, hcr, hp, hv⟩ := matchLevels_fill_mem _ _ _ _ hB f hf
    refine ⟨hv, fun hcon => ?_, fun _ => ⟨pq.2, ?_, ?_⟩⟩
    · cases hcon
    · rw [hp]
      simpa using hpq
    · rw [hp]
      exact of_decide_eq_true hcr

theorem C6_fill_price_witness :
    (⟨1, 3, 100⟩ : Fill) ∈ (bAsk100.add_order ⟨8, 102, 3, Side.Buy⟩).2 ∧
    (0 < (⟨1, 3, 100⟩ : Fill).volume ∧
     ((⟨8, 102, 3, Side.Buy⟩ : Order).side = Side.Buy →
        ∃ q, ((⟨1, 3, 100⟩ : Fill).price, q) ∈ bAsk100.asks ∧
          (⟨1, 3, 100⟩ : Fill).price ≤ (⟨8, 102, 3, Side.Buy⟩ : Order).price) ∧
     ((⟨8, 102, 3, Side.Buy⟩ : Order).side = Side.Sell →
        ∃ q, ((⟨1, 3, 100⟩ : Fill).price, q) ∈ bAsk100.bids ∧
          (⟨8, 102, 3, Side.Buy⟩ : Order).price ≤ (⟨1, 3, 100⟩ : Fill).price)) :=
  ⟨by decide,
    C6_fill_price bAsk100 ⟨8, 102, 3, Side.Buy⟩ (by decide) (by decide)
      ⟨1, 3, 100⟩ (by decide)⟩

theorem idsFrom_append (s : Int) (n m : Nat) :
    idsFrom s n ++ idsFrom (s + n) m = idsFrom s (n + m) := by
  induction n generalizing s with
  | zero => simp [idsFrom]
  | succ n ih =>
    have hcast : s + ((n + 1 : Nat) : Int) = (s + 1) + (n : Int) := by
      push_cast
      ring
    simp only [idsFrom, List.cons_append, hcast, ih (s + 1)]
    rw [show n + 1 + m = (n + m) + 1 by omega]
    simp [idsFrom]

theorem idsFrom_mem {s x : Int} {n : Nat} (h : x ∈ idsFrom s n) : s < x := by
  induction n generalizing s with
  | zero => simp [idsFrom] at h
  | succ n ih =>
    simp only [idsFrom, List.mem_cons] at h
    rcases h with h | h
    · omega
    · have := ih h
      omega

theorem idsFrom_pairwise (s : Int) (n : Nat) :
    List.Pairwise (· < ·) (idsFrom s n) := by
  induction n generalizing s with
  | zero => simp [idsFrom]
  | succ n ih =>
    simp only [idsFrom, List.pairwise_cons]
    refine ⟨fun x hx => ?_, ih (s + 1)⟩
    have := idsFrom_mem hx
    omega

theorem idsFrom_getD (s : Int) (n i : Nat) (h : i < n) :
    (idsFrom s n).getD i 0 = s + 1 + i := by
  induction n generalizing s i with
  | zero => omega
  | succ n ih =>
    cases i with
    | zero => simp [idsFrom]
    | succ i =>
      simp only [idsFrom, List.getD_cons_succ]
      rw [ih (s + 1) i (by omega)]
      push_cast
      ring

theorem matchQueue_ids (mid rem : Int) (q : List Order) (p : Int) :
    (matchQueue mid rem q p).fills.map Fill.matched_id
        = idsFrom mid (matchQueue mid rem q p).fills.length ∧
    (matchQueue mid rem q p).mid
        = mid + (matchQueue mid rem q p).fills.length := by
  induction q generalizing mid rem with
  | nil => simp [matchQueue, idsFrom]
  | cons o rest ih =>
    by_cases h : 0 < rem
    · simp only [matchQueue, if_pos h]
      by_cases h2 : o.quantity - min rem o.quantity = 0
      · rw [if_pos h2]
        obtain ⟨ih1, ih2⟩ := ih (mid + 1) (rem - min rem o.quantity)
        constructor
        · simp only [List.map_cons, List.length_cons, idsFrom]
          rw [ih1]
        · simp only [List.length_cons]
          omega
      · rw [if_neg h2]
        obtain ⟨ih1, ih2⟩ := ih (mid + 1) (rem - min rem o.quantity)
        constructor
        · simp only [List.map_cons, List.length_cons, idsFrom]
          rw [ih1]
        · simp only [List.length_cons]
          omega
    · rw [matchQueue_nonpos mid rem _ p (by omega)]
      simp [idsFrom]

theorem matchLevels_ids (crosses : Int → Bool) (mid qty : Int)
    (levels : LevelMap) :
    (matchLevels crosses mid qty levels).fills.map Fill.matched_id
        = idsFrom mid (matchLevels crosses mid qty levels).fills.length ∧
    (matchLevels crosses mid qty levels).mid
        = mid + (matchLevels crosses mid qty levels).fills.length := by
  induction levels generalizing mid qty with
  | nil => simp [matchLevels, idsFrom]
  | cons l rest ih =>
    obtain ⟨p, q⟩ := l
    by_cases h : 0 < qty
    · simp only [matchLevels, if_pos h]
      by_cases hc : crosses p = true
      · rw [if_pos hc]
        by_cases he : (matchQueue mid qty q p).queue = []
        · rw [if_pos he]
          obtain ⟨q1, q2⟩ := matchQueue_ids mid qty q p
          obtain ⟨r1, r2⟩ :=
            ih (matchQueue mid qty q p).mid (matchQueue mid qty q p).rem
          constructor
          · simp only [List.map_append, List.length_append]
            rw [q1, r1, q2]
            exact idsFrom_append mid _ _
          · simp only [List.length_append]
            omega
        · rw [if_neg he]
          exact matchQueue_ids mid qty q p
      · rw [if_neg hc]
        simp [idsFrom]
    · rw [matchLevels_nonpos crosses mid qty _ (by omega)]
      simp [idsFrom]

theorem add_order_ids (b : OrderBook) (o : Order) :
    (b.add_order o).2.map Fill.matched_id
        = idsFrom b.match_id (b.add_order o).2.length ∧
    (b.add_order o).1.match_id = b.match_id + (b.add_order o).2.length := by
  rcases o with ⟨oid, op, oq, os⟩
  cases os <;>
    simp only [OrderBook.add_order, matchPart] <;>
    split <;>
    exact ⟨(matchLevels_ids _ b.match_id oq _).1,
      (matchLevels_ids _ b.match_id oq _).2⟩

theorem runBook_ids (b : OrderBook) (os : List Order) :
    (runBook b os).2.map Fill.matched_id
        = idsFrom b.match_id (runBook b os).2.length ∧
    (runBook b os).1.match_id = b.match_id + (runBook b os).2.length := by
  induction os generalizing b with
  | nil => simp [runBook, idsFrom]
  | cons o rest ih =>
    simp only [runBook]
    obtain ⟨a1, a2⟩ := add_order_ids b o
    obtain ⟨r1, r2⟩ := ih (b.add_order o).1
    constructor
    · simp only [List.map_append, List.length_append]
      rw [a1, r1, a2]
      exact idsFrom_append b.match_id _ _
    · simp only [List.length_append]
      omega

/-- C7: each fill advances the match counter by exactly one (the book's
counter after a call is the counter before plus the number of fills), the
i-th fill of a call carries match id counter + 1 + i (so one call's fills
are strictly increasing in match id), and across any sequence of submissions
the concatenated fill stream has strictly increasing match ids. -/
theorem C7_match_id_monotone :
    (∀ (b : OrderBook) (o : Order),
       (b.add_order o).1.match_id = b.match_id + (b.add_order o).2.length) ∧
    (∀ (b : OrderBook) (o : Order) (i : Nat), i < (b.add_order o).2.length →
       ((b.add_order o).2.getD i default).matched_id = b.match_id + 1 + i) ∧
    (∀ (b : OrderBook) (os : List Order),
       List.Pairwise (· < ·) ((runBook b os).2.map Fill.matched_id)) := by
  refine ⟨fun b o => (add_order_ids b o).2, ?_, ?_⟩
  · intro b o i hi
    have h1 := (add_order_ids b o).1
    have h2 : ((b.add_order o).2.getD i default).matched_id
        = ((b.add_order o).2.map Fill.matched_id).getD i 0 := by
      rw [List.getD_eq_getElem?_getD, List.getD_eq_getElem?_getD,
        List.getElem?_map, List.getElem?_eq_getElem hi]
      rfl
    rw [h2, h1]
    exact idsFrom_getD _ _ _ (by simpa using hi)
  · intro b os
    rw [(runBook_ids b os).1]
    exact idsFrom_pairwise _ _

theorem C7_match_id_monotone_witness :
    0 < (bAsk100.add_order ⟨8, 102, 3, Side.Buy⟩).2.length ∧
    ((bAsk100.add_order ⟨8, 102, 3, Side.Buy⟩).2.getD 0 default).matched_id
      = bAsk100.match_id + 1 + 0 :=
  ⟨by decide,
    C7_match_id_monotone.2.1 bAsk100 ⟨8, 102, 3, Side.Buy⟩ 0 (by decide)⟩

theorem keys_cons (l : Int × List Order) (rest : LevelMap) :
    keys (l :: rest) = l.1 :: keys rest := rfl

theorem matchQueue_rem_nonneg (mid rem : Int) (q : List Order) (p : Int)
    (h : 0 ≤ rem) : 0 ≤ (matchQueue mid rem q p).rem := by
  induction q generalizing mid rem with
  | nil => simpa [matchQueue]
  | cons o rest ih =>
    by_cases h1 : 0 < rem
    · simp only [matchQueue, if_pos h1]
      by_cases h2 : o.quantity - min rem o.quantity = 0
      · rw [if_pos h2]
        exact ih (mid + 1) (rem - min rem o.quantity) (by omega)
      · rw [if_neg h2]
        exact ih (mid + 1) (rem - min rem o.quantity) (by omega)
    · rw [matchQueue_nonpos _ _ _ _ (by omega)]
      exact h

theorem matchQueue_queue_pos (mid rem : Int) (q : List Order) (p : Int)
    (hq : ∀ o ∈ q, 0 < o.quantity) :
    ∀ o ∈ (matchQueue mid rem q p).queue, 0 < o.quantity := by
  induction q generalizing mid rem with
  | nil => intro x hx; simp [matchQueue] at hx
  | cons o rest ih =>
    intro x hx
    by_cases h1 : 0 < rem
    · simp only [matchQueue, if_pos h1] at hx
      by_cases h2 : o.quantity - min rem o.quantity = 0
      · rw [if_pos h2] at hx
        exact ih _ _ (fun y hy => hq y (by simp [hy])) x hx
      · rw [if_neg h2] at hx
        rcases List.mem_cons.mp hx with h3 | h3
        · rw [h3]
          have ha := hq o (by simp)
          have hb : min rem o.quantity ≤ o.quantity := min_le_right _ _
          simp only
          omega
        · exact ih _ _ (fun y hy => hq y (by simp [hy])) x h3
    · rw [matchQueue_nonpos _ _ _ _ (by omega)] at hx
      exact hq x hx

theorem matchQueue_nonempty_rem_zero (mid rem : Int) (q : List Order)
    (p : Int) (h : 0 ≤ rem) (hne : (matchQueue mid rem q p).queue ≠ []) :
    (matchQueue mid rem q p).rem = 0 := by
  induction q generalizing mid rem with
  | nil => simp [matchQueue] at hne
  | cons o rest ih =>
    by_cases h1 : 0 < rem
    · simp only [matchQueue, if_pos h1] at hne ⊢
      by_cases h2 : o.quantity - min rem o.quantity = 0
      · rw [if_pos h2] at hne ⊢
        exact ih _ _ (by omega) hne
      · rw [if_neg h2] at hne ⊢
        have htr : min rem o.quantity = rem := by omega
        rw [htr, matchQueue_nonpos (mid + 1) (rem - rem) rest p (by omega)]
        dsimp only
        omega
    · rw [matchQueue_nonpos _ _ _ _ (by omega)]
      dsimp only
      omega

theorem matchLevels_rem_nonneg (crosses : Int → Bool) (mid qty : Int)
    (levels : LevelMap) (h : 0 ≤ qty) :
    0 ≤ (matchLevels crosses mid qty levels).rem := by
  induction levels generalizing mid qty with
  | nil => simpa [matchLevels]
  | cons l rest ih =>
    obtain ⟨p, q⟩ := l
    by_cases h1 : 0 < qty
    · simp only [matchLevels, if_pos h1]
      by_cases hc : crosses p = true
      · rw [if_pos hc]
        by_cases he : (matchQueue mid qty q p).queue = []
        · rw [if_pos he]
          exact ih _ _ (matchQueue_rem_nonneg mid qty q p (by omega))
        · rw [if_neg he]
          exact matchQueue_rem_nonneg mid qty q p (by omega)
      · rw [if_neg hc]
        exact h
    · rw [matchLevels_nonpos _ _ _ _ (by omega)]
      exact h

theorem matchLevels_keys_suffix (crosses : Int → Bool) (mid qty : Int)
    (levels : LevelMap) :
    keys (matchLevels crosses mid qty levels).levels <:+ keys levels := by
  induction levels generalizing mid qty with
  | nil => simp [matchLevels]
  | cons l rest ih =>
    obtain ⟨p, q⟩ := l
    by_cases h1 : 0 < qty
    · simp only [matchLevels, if_pos h1]
      by_cases hc : crosses p = true
      · rw [if_pos hc]
        by_cases he : (matchQueue mid qty q p).queue = []
        · rw [if_pos he]
          rw [keys_cons]
          exact (ih _ _).trans (List.suffix_cons _ _)
        · rw [if_neg he]
          rw [keys_cons, keys_cons]
      · rw [if_neg hc]
    · rw [matchLevels_nonpos _ _ _ _ (by omega)]

theorem matchLevels_levels_prop (crosses : Int → Bool) (mid qty : Int)
    (levels : LevelMap)
    (h : ∀ l ∈ levels, l.2 ≠ [] ∧ ∀ x ∈ l.2, 0 < x.quantity) :
    ∀ l ∈ (matchLevels crosses mid qty levels).levels,
      l.2 ≠ [] ∧ ∀ x ∈ l.2, 0 < x.quantity := by
  induction levels generalizing mid qty with
  | nil => intro l hl; simp [matchLevels] at hl
  | cons l0 rest ih =>
    obtain ⟨p, q⟩ := l0
    intro l hl
    by_cases h1 : 0 < qty
    · simp only [matchLevels, if_pos h1] at hl
      by_cases hc : crosses p = true
      · rw [if_pos hc] at hl
        by_cases he : (matchQueue mid qty q p).queue = []
        · rw [if_pos he] at hl
          exact ih _ _ (fun y hy => h y (by simp [hy])) l hl
        · rw [if_neg he] at hl
          rcases List.mem_cons.mp hl with h3 | h3
          · rw [h3]
            exact ⟨he, matchQueue_queue_pos mid qty q p
              ((h (p, q) (by simp)).2)⟩
          · exact h l (by simp [h3])
      · rw [if_neg hc] at hl
        exact h l hl
    · rw [matchLevels_nonpos _ _ _ _ (by omega)] at hl
      exact h l hl

theorem matchLevels_stop (crosses : Int → Bool) (mid qty : Int)
    (levels : LevelMap) (h : 0 ≤ qty)
    (hrem : 0 < (matchLevels crosses mid qty levels).rem) :
    (matchLevels crosses mid qty levels).levels = [] ∨
    ∃ p q rest2,
      (matchLevels crosses mid qty levels).levels = (p, q) :: rest2 ∧
      crosses p = false := by
  induction levels generalizing mid qty with
  | nil => left; rfl
  | cons l0 rest ih =>
    obtain ⟨p, q⟩ := l0
    by_cases h1 : 0 < qty
    · simp only [matchLevels, if_pos h1] at hrem ⊢
      by_cases hc : crosses p = true
      · rw [if_pos hc] at hrem ⊢
        by_cases he : (matchQueue mid qty q p).queue = []
        · rw [if_pos he] at hrem ⊢
          exact ih _ _ (matchQueue_rem_nonneg mid qty q p (by omega)) hrem
        · rw [if_neg he] at hrem
          dsimp only at hrem
          have := matchQueue_nonempty_rem_zero mid qty q p (by omega) he
          omega
      · rw [if_neg hc] at hrem ⊢
        right
        exact ⟨p, q, rest, rfl, by simpa using hc⟩
    · rw [matchLevels_nonpos _ _ _ _ (by omega)] at hrem
      dsimp only at hrem
      omega

theorem insertBid_mem (m : LevelMap) (p : Int) (o : Order) :
    ∀ l ∈ insertBid m p o, l ∈ m ∨ l = (p, [o]) ∨
      ∃ os, (p, os) ∈ m ∧ l = (p, os ++ [o]) := by
  induction m with
  | nil =>
    intro l hl
    simp only [insertBid, List.mem_singleton] at hl
    exact Or.inr (Or.inl hl)
  | cons l0 rest ih =>
    obtain ⟨q, os⟩ := l0
    intro l hl
    by_cases h1 : q < p
    · simp only [insertBid, if_pos h1] at hl
      rcases List.mem_cons.mp hl with h | h
      · exact Or.inr (Or.inl h)
      · exact Or.inl h
    · by_cases h2 : q = p
      · subst h2
        simp only [insertBid, if_neg h1, if_pos rfl] at hl
        rcases List.mem_cons.mp hl with h | h
        · exact Or.inr (Or.inr ⟨os, by simp, h⟩)
        · exact Or.inl (by simp [h])
      · simp only [insertBid, if_neg h1, if_neg h2] at hl
        rcases List.mem_cons.mp hl with h | h
        · exact Or.inl (by simp [h])
        · rcases ih l h with h3 | h3 | ⟨os2, hos2, hl2⟩
          · exact Or.inl (by simp [h3])
          · exact Or.inr (Or.inl h3)
          · exact Or.inr (Or.inr ⟨os2, by simp [hos2], hl2⟩)

theorem insertAsk_mem (m : LevelMap) (p : Int) (o : Order) :
    ∀ l ∈ insertAsk m p o, l ∈ m ∨ l = (p, [o]) ∨
      ∃ os, (p, os) ∈ m ∧ l = (p, os ++ [o]) := by
  induction m with
  | nil =>
    intro l hl
    simp only [insertAsk, List.mem_singleton] at hl
    exact Or.inr (Or.inl hl)
  | cons l0 rest ih =>
    obtain ⟨q, os⟩ := l0
    intro l hl
    by_cases h1 : p < q
    · simp only [insertAsk, if_pos h1] at hl
      rcases List.mem_cons.mp hl with h | h
      · exact Or.inr (Or.inl h)
      · exact Or.inl h
    · by_cases h2 : q = p
      · subst h2
        simp only [insertAsk, if_neg h1, if_pos rfl] at hl
        rcases List.mem_cons.mp hl with h | h
        · exact Or.inr (Or.inr ⟨os, by simp, h⟩)
        · exact Or.inl (by simp [h])
      · simp only [insertAsk, if_neg h1, if_neg h2] at hl
        rcases List.mem_cons.mp hl with h | h
        · exact Or.inl (by simp [h])
        · rcases ih l h with h3 | h3 | ⟨os2, hos2, hl2⟩
          · exact Or.inl (by simp [h3])
          · exact Or.inr (Or.inl h3)
          · exact Or.inr (Or.inr ⟨os2, by simp [hos2], hl2⟩)

theorem insertBid_keys_mem (m : LevelMap) (p : Int) (o : Order) :
    ∀ k ∈ keys (insertBid m p o), k = p ∨ k ∈ keys m := by
  intro k hk
  obtain ⟨l, hl, hk2⟩ := List.mem_map.mp hk
  rcases insertBid_mem m p o l hl with h | h | ⟨os2, hos2, hl2⟩
  · exact Or.inr (by rw [← hk2]; exact List.mem_map_of_mem _ h)
  · rw [← hk2, h]
    exact Or.inl rfl
  · rw [← hk2, hl2]
    exact Or.inl rfl

theorem insertAsk_keys_mem (m : LevelMap) (p : Int) (o : Order) :
    ∀ k ∈ keys (insertAsk m p o), k = p ∨ k ∈ keys m := by
  intro k hk
  obtain ⟨l, hl, hk2⟩ := List.mem_map.mp hk
  rcases insertAsk_mem m p o l hl with h | h | ⟨os2, hos2, hl2⟩
  · exact Or.inr (by rw [← hk2]; exact List.mem_map_of_mem _ h)
  · rw [← hk2, h]
    exact Or.inl rfl
  · rw [← hk2, hl2]
    exact Or.inl rfl

theorem insertBid_head (m : LevelMap) (p : Int) (o : Order) :
    (keys (insertBid m p o)).head? = some p ∨
    (keys (insertBid m p o)).head? = (keys m).head? := by
  cases m with
  | nil => exact Or.inl rfl
  | cons l rest =>
    obtain ⟨q, os⟩ := l
    by_cases h1 : q < p
    · exact Or.inl (by simp [insertBid, h1, keys])
    · by_cases h2 : q = p
      · subst h2
        exact Or.inl (by simp [insertBid, h1, keys])
      · exact Or.inr (by simp [insertBid, h1, h2, keys])

theorem insertAsk_head (m : LevelMap) (p : Int) (o : Order) :
    (keys (insertAsk m p o)).head? = some p ∨
    (keys (insertAsk m p o)).head? = (keys m).head? := by
  cases m with
  | nil => exact Or.inl rfl
  | cons l rest =>
    obtain ⟨q, os⟩ := l
    by_cases h1 : p < q
    · exact Or.inl (by simp [insertAsk, h1, keys])
    · by_cases h2 : q = p
      · subst h2
        exact Or.inl (by simp [insertAsk, h1, keys])
      · exact Or.inr (by simp [insertAsk, h1, h2, keys])

theorem insertBid_sorted (m : LevelMap) (p : Int) (o : Order)
    (hs : List.Chain' (· > ·) (keys m)) :
    List.Chain' (· > ·) (keys (insertBid m p o)) := by
  induction m with
  | nil => simp [insertBid, keys]
  | cons l rest ih =>
    obtain ⟨q, os⟩ := l
    rw [keys_cons] at hs
    by_cases h1 : q < p
    · simp only [insertBid, if_pos h1, keys_cons]
      exact List.chain'_cons.mpr ⟨h1, hs⟩
    · by_cases h2 : q = p
      · subst h2
        simp only [insertBid, if_neg h1, if_pos rfl, keys_cons]
        exact hs
      · simp only [insertBid, if_neg h1, if_neg h2, keys_cons]
        apply List.chain'_cons'.mpr
        constructor
        · intro y hy
          rcases insertBid_head rest p o with hh | hh
          · rw [hh] at hy
            simp only [Option.mem_def, Option.some.injEq] at hy
            omega
          · rw [hh] at hy
            exact (List.chain'_cons'.mp hs).1 y hy
        · exact ih (List.Chain'.tail hs)

theorem insertAsk_sorted (m : LevelMap) (p : Int) (o : Order)
    (hs : List.Chain' (· < ·) (keys m)) :
    List.Chain' (· < ·) (keys (insertAsk m p o)) := by
  induction m with
  | nil => simp [insertAsk, keys]
  | cons l rest ih =>
    obtain ⟨q, os⟩ := l
    rw [keys_cons] at hs
    by_cases h1 : p < q
    · simp only [insertAsk, if_pos h1, keys_cons]
      exact List.chain'_cons.mpr ⟨h1, hs⟩
    · by_cases h2 : q = p
      · subst h2
        simp only [insertAsk, if_neg h1, if_pos rfl, keys_cons]
        exact hs
      · simp only [insertAsk, if_neg h1, if_neg h2, keys_cons]
        apply List.chain'_cons'.mpr
        constructor
        · intro y hy
          rcases insertAsk_head rest p o with hh | hh
          · rw [hh] at hy
            simp only [Option.mem_def, Option.some.injEq] at hy
            omega
          · rw [hh] at hy
            exact (List.chain'_cons'.mp hs).1 y hy
        · exact ih (List.Chain'.tail hs)

theorem add_order_valid (b : OrderBook) (o : Order) (hv : ValidBook b) :
    ValidBook (b.add_order o).1 := by
  rcases o with ⟨oid, op, oq, os⟩
  cases os
  case Buy =>
    have hmP : matchPart b ⟨oid, op, oq, Side.Buy⟩
        = matchLevels (fun p => decide (p ≤ op)) b.match_id oq b.asks := rfl
    have hsuffix : keys (matchPart b ⟨oid, op, oq, Side.Buy⟩).levels
        <:+ keys b.asks := by
      rw [hmP]
      exact matchLevels_keys_suffix _ _ _ _
    have hsubset := hsuffix.subset
    have hAS : List.Chain' (· < ·)
        (keys (matchPart b ⟨oid, op, oq, Side.Buy⟩).levels) :=
      List.chain'_iff_pairwise.mpr
        ((List.chain'_iff_pairwise.mp hv.asksSorted).sublist hsuffix.sublist)
    have hAP : ∀ l ∈ (matchPart b ⟨oid, op, oq, Side.Buy⟩).levels,
        l.2 ≠ [] ∧ ∀ x ∈ l.2, 0 < x.quantity := by
      rw [hmP]
      exact matchLevels_levels_prop _ _ _ _ hv.asksProp
    simp only [OrderBook.add_order]
    by_cases hrem : 0 < (matchPart b ⟨oid, op, oq, Side.Buy⟩).rem
    · rw [if_pos hrem]
      refine ⟨hAS, insertBid_sorted _ _ _ hv.bidsSorted, hAP, ?_, ?_⟩
      · intro l hl
        rcases insertBid_mem b.bids op _ l hl with h | h | ⟨os2, hos2, hl2⟩
        · exact hv.bidsProp l h
        · rw [h]
          refine ⟨by simp, ?_⟩
          intro x hx
          simp only [List.mem_singleton] at hx
          rw [hx]
          exact hrem
        · rw [hl2]
          refine ⟨by simp, ?_⟩
          intro x hx
          rcases List.mem_append.mp hx with h4 | h4
          · exact (hv.bidsProp (op, os2) hos2).2 x h4
          · simp only [List.mem_singleton] at h4
            rw [h4]
            exact hrem
      · intro bp hbp ap hap
        rcases insertBid_keys_mem b.bids op _ bp hbp with h | h
        · rw [h]
          have hq0 : 0 < oq := by
            by_contra hq0
            rw [hmP, matchLevels_nonpos _ _ _ _ (by omega)] at hrem
            dsimp only at hrem
            omega
          have hstop := matchLevels_stop (fun p => decide (p ≤ op))
            b.match_id oq b.asks (by omega) (by rw [← hmP]; exact hrem)
          rw [← hmP] at hstop
          rcases hstop with hnil | ⟨p2, q2, rest2, heq, hcf⟩
          · rw [hnil] at hap
            simp [keys] at hap
          · rw [heq, keys_cons] at hap hAS
            have hnle : ¬ (p2 ≤ op) := of_decide_eq_false hcf
            rcases List.mem_cons.mp hap with h5 | h5
            · omega
            · have h6 := chainLt_head p2 _ hAS ap h5
              omega
        · exact hv.uncrossed bp h ap (hsubset hap)
    · rw [if_neg hrem]
      refine ⟨hAS, hv.bidsSorted, hAP, hv.bidsProp, ?_⟩
      intro bp hbp ap hap
      exact hv.uncrossed bp hbp ap (hsubset hap)
  case Sell =>
    have hmP : matchPart b ⟨oid, op, oq, Side.Sell⟩
        = matchLevels (fun p => decide (op ≤ p)) b.match_id oq b.bids := rfl
    have hsuffix : keys (matchPart b ⟨oid, op, oq, Side.Sell⟩).levels
        <:+ keys b.bids := by
      rw [hmP]
      exact matchLevels_keys_suffix _ _ _ _
    have hsubset := hsuffix.subset
    have hBS : List.Chain' (· > ·)
        (keys (matchPart b ⟨oid, op, oq, Side.Sell⟩).levels) :=
      List.chain'_iff_pairwise.mpr
        ((List.chain'_iff_pairwise.mp hv.bidsSorted).sublist hsuffix.sublist)
    have hBP : ∀ l ∈ (matchPart b ⟨oid, op, oq, Side.Sell⟩).levels,
        l.2 ≠ [] ∧ ∀ x ∈ l.2, 0 < x.quantity := by
      rw [hmP]
      exact matchLevels_levels_prop _ _ _ _ hv.bidsProp
    simp only [OrderBook.add_order]
    by_cases hrem : 0 < (matchPart b ⟨oid, op, oq, Side.Sell⟩).rem
    · rw [if_pos hrem]
      refine ⟨insertAsk_sorted _ _ _ hv.asksSorted, hBS, ?_, hBP, ?_⟩
      · intro l hl
        rcases insertAsk_mem b.asks op _ l hl with h | h | ⟨os2, hos2, hl2⟩
        · exact hv.asksProp l h
        · rw [h]
          refine ⟨by simp, ?_⟩
          intro x hx
          simp only [List.mem_singleton] at hx
          rw [hx]
          exact hrem
        · rw [hl2]
          refine ⟨by simp, ?_⟩
          intro x hx
          rcases List.mem_append.mp hx with h4 | h4
          · exact (hv.asksProp (op, os2) hos2).2 x h4
          · simp only [List.mem_singleton] at h4
            rw [h4]
            exact hrem
      · intro bp hbp ap hap
        rcases insertAsk_keys_mem b.asks op _ ap hap with h | h
        · rw [h]
          have hq0 : 0 < oq := by
            by_contra hq0
            rw [hmP, matchLevels_nonpos _ _ _ _ (by omega)] at hrem
            dsimp only at hrem
            omega
          have hstop := matchLevels_stop (fun p => decide (op ≤ p))
            b.match_id oq b.bids (by omega) (by rw [← hmP]; exact hrem)
          rw [← hmP] at hstop
          rcases hstop with hnil | ⟨p2, q2, rest2, heq, hcf⟩
          · rw [hnil] at hbp
            simp [keys] at hbp
          · rw [heq, keys_cons] at hbp hBS
            have hnle : ¬ (op ≤ p2) := of_decide_eq_false hcf
            rcases List.mem_cons.mp hbp with h5 | h5
            · omega
            · have h6 := chainGt_head p2 _ hBS bp h5
              omega
        · exact hv.uncrossed bp (hsubset hbp) ap h
    · rw [if_neg hrem]
      refine ⟨hv.asksSorted, hBS, hv.asksProp, hBP, ?_⟩
      intro bp hbp ap hap
      exact hv.uncrossed bp (hsubset hbp) ap hap

theorem runBook_valid (os : List Order) (b : OrderBook) (hv : ValidBook b) :
    ValidBook (runBook b os).1 := by
  induction os generalizing b with
  | nil => exact hv
  | cons o rest ih => exact ih (b.add_order o).1 (add_order_valid b o hv)

theorem new_valid : ValidBook OrderBook.new := by
  refine ⟨?_, ?_, ?_, ?_, ?_⟩ <;> simp [OrderBook.new, keys]

/-- C3: after any sequence of `add_order` calls starting from the empty
book, every bid price is strictly below every ask price; in particular when
both sides are non-empty the best (highest) bid is strictly below the best
(lowest) ask. -/
theorem C3_no_crossed_book (os : List Order) :
    (∀ bp ∈ keys (runBook OrderBook.new os).1.bids,
       ∀ ap ∈ keys (runBook OrderBook.new os).1.asks, bp < ap) ∧
    ((runBook OrderBook.new os).1.bids ≠ [] →
       (runBook OrderBook.new os).1.asks ≠ [] →
       ∃ bb ba, bestBid (runBook OrderBook.new os).1 = some bb ∧
         bestAsk (runBook OrderBook.new os).1 = some ba ∧ bb < ba) := by
  have hv := runBook_valid os OrderBook.new new_valid
  refine ⟨hv.uncrossed, fun hb ha => ?_⟩
  rcases hbids : (runBook OrderBook.new os).1.bids with _ | ⟨⟨bp, bq⟩, brest⟩
  · exact absurd hbids hb
  rcases hasks : (runBook OrderBook.new os).1.asks with _ | ⟨⟨ap, aq⟩, arest⟩
  · exact absurd hasks ha
  refine ⟨bp, ap, by simp [bestBid, hbids], by simp [bestAsk, hasks], ?_⟩
  apply hv.uncrossed
  · rw [hbids, keys_cons]
    simp
  · rw [hasks, keys_cons]
    simp

theorem C3_no_crossed_book_witness :
    ((100:Int) ∈ keys (runBook OrderBook.new osBoth).1.bids ∧
     (101:Int) ∈ keys (runBook OrderBook.new osBoth).1.asks ∧
     (100:Int) < 101) ∧
    ((runBook OrderBook.new osBoth).1.bids ≠ [] ∧
     (runBook OrderBook.new osBoth).1.asks ≠ [] ∧
     ∃ bb ba, bestBid (runBook OrderBook.new osBoth).1 = some bb ∧
       bestAsk (runBook OrderBook.new osBoth).1 = some ba ∧ bb < ba) :=
  ⟨⟨by decide, by decide,
     (C3_no_crossed_book osBoth).1 100 (by decide) 101 (by decide)⟩,
   ⟨by decide, by decide,
     (C3_no_crossed_book osBoth).2 (by decide) (by decide)⟩⟩
